import Mathlib

/-!
Verification of the dataset-generator core: a shallow embedding of the
streaming generation model (`generators/ecommerce.py`, `generators/weather.py`,
`generators/market_ohlcv.py`), the partitioned parquet writer
(`writers/parquet.py`) and the pipeline driver (`core/pipeline.py`), together
with theorems settling the spec's claims about them.

Modelling conventions:
* Python `int` values are embedded as `Int` (`Nat` where the source guarantees
  non-negativity, e.g. row counts inside the batching loops), Python `float`
  values as `ℚ`.
* Calendar dates are embedded as day ordinals (`Nat`); `date_range(start, end)`
  walks the ordinals `start, start+1, ..., end` inclusively, exactly as the
  source's `_date_range` helpers do.
* numpy pseudo-random draws are embedded as oracle streams: one abstract
  function per logical draw site, indexed by the position of the draw in the
  stream of values that `numpy` produces for the seed that constructs the
  source's `Generator` object.  Where a claim needs the documented contract of
  a numpy sampler (e.g. `rng.integers(lo, hi)` lies in `[lo, hi)`) it appears
  as an explicit hypothesis; everything downstream of the draws is translated
  from the source.  Two streams constructed from the same seed are represented
  by the same oracle, which is exactly the source's determinism mechanism
  (`np.random.default_rng(self.seed + offset)` built afresh at each call).
-/

namespace DatasetGen

/-! ## E-commerce generator (`generators/ecommerce.py`) -/

/-- The `orders_mode` literal: `"fixed" | "range" | "normal"`. -/
inductive OrdersMode
  | fixed
  | range
  | normal
deriving DecidableEq, Repr

/-- The `orders_partitioning` literal: `"ymd" | "ym" | "yearmonth"`. -/
inductive OrdersPartitioning
  | ymd
  | ym
  | yearmonth
deriving DecidableEq, Repr

/-- Configuration fields of `ECommerceGenerator` that the generation logic
reads (dates as day ordinals). -/
structure EConfig where
  seed : Int := 42
  n_customers : Int := 1000000
  n_products : Int := 50000
  orders_per_day : Int := 200000
  start_date : Nat
  end_date : Nat
  file_rows_target : Nat := 250000
  orders_partitioning : OrdersPartitioning := .ym
  orders_mode : OrdersMode := .fixed
  orders_min : Option Int := none
  orders_max : Option Int := none
  orders_mean : Option ℚ := none
  orders_std : Option ℚ := none
  orders_floor : Int := 0
deriving DecidableEq, Repr

/-- The trailing `orders_floor` check of `_validate_configuration`. -/
def checkFloor (cfg : EConfig) : Option EConfig :=
  if cfg.orders_floor < 0 then none else some cfg

/-- Embeds `ECommerceGenerator._validate_configuration`: returns the updated
configuration (defaults for `orders_min`/`orders_max`/`orders_mean`/
`orders_std` filled in) or `none` where the source raises `ValueError`.
`int(x * 0.7)` / `int(x * 1.3)` truncate toward zero; they are embedded as
exact integer truncation (`Int.tdiv`), which agrees with the source for the
integer magnitudes involved. -/
def validate_configuration (cfg : EConfig) : Option EConfig :=
  if cfg.start_date > cfg.end_date then none
  else
    match cfg.orders_mode with
    | .fixed =>
        if cfg.orders_per_day < 0 then none else checkFloor cfg
    | .range =>
        let mn := cfg.orders_min.getD (max cfg.orders_floor (Int.tdiv (7 * cfg.orders_per_day) 10))
        let mx := cfg.orders_max.getD (max mn (Int.tdiv (13 * cfg.orders_per_day) 10))
        if mn < 0 ∨ mx < 0 then none
        else if mn > mx then none
        else checkFloor { cfg with orders_min := some mn, orders_max := some mx }
    | .normal =>
        let mean := cfg.orders_mean.getD (cfg.orders_per_day : ℚ)
        let std := cfg.orders_std.getD (max 1 ((cfg.orders_per_day : ℚ) / 10))
        if std < 0 then none
        else checkFloor { cfg with orders_mean := some mean, orders_std := some std }

/-- Embeds `ECommerceGenerator._sample_orders_for_day`.  `draw` is the day's raw
pseudo-random value: for `range` mode it stands for
`int(rng.integers(orders_min, orders_max + 1))` and for `normal` mode for
`int(round(rng.normal(orders_mean, orders_std)))`; `fixed` mode draws
nothing. -/
def sample_orders_for_day (cfg : EConfig) (draw : Int) : Int :=
  match cfg.orders_mode with
  | .fixed => max cfg.orders_floor cfg.orders_per_day
  | .range => max cfg.orders_floor draw
  | .normal => max cfg.orders_floor draw

/-- Number of days covered by `_date_range(start_date, end_date)` (inclusive
bounds; empty when `start_date > end_date`). -/
def numDays (cfg : EConfig) : Nat := cfg.end_date + 1 - cfg.start_date

/-- Embeds `ECommerceGenerator._compute_daily_counts`, materialised into the
`_daily_counts` tuple at construction time.  `v i` is the raw draw consumed
for the `i`-th day (the volume rng is `default_rng(seed + 505)` and one draw
is consumed per day in `range`/`normal` mode). -/
def daily_counts (cfg : EConfig) (v : Nat → Int) : List (Nat × Int) :=
  (List.range (numDays cfg)).map (fun i => (cfg.start_date + i, sample_orders_for_day cfg (v i)))

/-- The inner `while remaining > 0` loop of `_order_batches` /
`_order_item_batches`: the sizes of the chunks a single day's `total` rows are
cut into (`batch = min(remaining, file_rows_target)`).  The source loops
forever when `file_rows_target = 0` and `total > 0`; the embedding returns `[]`
on that (non-terminating, never exercised) branch, and every theorem about it
assumes `1 ≤ target`. -/
def dayChunksFuel : Nat → Nat → Nat → List Nat
  | 0, _, _ => []
  | fuel + 1, total, target =>
    if 0 < total then
      let b := min total target
      if 0 < b then b :: dayChunksFuel fuel (total - b) target else []
    else []

/-- Each loop iteration removes at least one row, so `total` itself bounds the
number of iterations and serves as fuel for the structural recursion. -/
def dayChunks (total target : Nat) : List Nat :=
  dayChunksFuel total total target

/-- Lay out the chunks of one day as windows `(day, startId, size)`, threading
the running `current_order_id`; returns the windows and the updated counter. -/
structure EWindow where
  day : Nat
  startId : Nat
  size : Nat
deriving DecidableEq, Repr

def windowsForDay (day : Nat) : Nat → List Nat → List EWindow × Nat
  | cur, [] => ([], cur)
  | cur, b :: bs =>
    let rest := windowsForDay day (cur + b) bs
    (⟨day, cur, b⟩ :: rest.1, rest.2)

/-- The sequence of per-day windows walked by `_order_batches` and
`_order_item_batches`: both streams iterate `self._daily_counts`, cut each
day's count into `min(remaining, file_rows_target)`-sized chunks, and thread
`current_order_id` (starting at 1) across the whole traversal. -/
def eWindowsGo (target : Nat) : Nat → List (Nat × Int) → List EWindow
  | _, [] => []
  | cur, (day, total) :: rest =>
    let forDay := windowsForDay day cur (dayChunks total.toNat target)
    forDay.1 ++ eWindowsGo target forDay.2 rest

def orderWindows (cfg : EConfig) (v : Nat → Int) : List EWindow :=
  eWindowsGo cfg.file_rows_target 1 (daily_counts cfg v)

/-- The pseudo-random draw streams of the orders / order-items pipelines.
`cust_draw i` etc. is the value the `default_rng(seed + 303)` stream supplies
for the order with `order_id = i + 1` (the vectorised calls in `_order_batch`
consume exactly one customer id, hour, status and amount per order, in order,
so the `i`-th order receives the `i`-th value of each stream in every
traversal); `poisson_draw i` is the raw `rng.poisson` draw of the
`default_rng(seed + 404)` stream for that order, and `product_draw k` /
`qty_draw k` are the `k`-th product / quantity draws of the item stream. -/
structure EOracles where
  cust_draw : Nat → Int
  hour_draw : Nat → Int
  status_draw : Nat → String
  amount_draw : Nat → ℚ
  poisson_draw : Nat → Int
  product_draw : Nat → Int
  qty_draw : Nat → Int

/-- One row of the orders table (`_order_batch`), base columns only. -/
structure OrderRow where
  order_id : Nat
  customer_id : Int
  order_date : Nat
  hour_of_day : Int
  status : String
  amount : ℚ
deriving DecidableEq, Repr

/-- Embeds `ECommerceGenerator._order_batch(rng, day, start_id, n_orders)`:
`order_ids = arange(start_id, start_id + n_orders)`, the other columns drawn
from the rng stream. -/
def order_batch (oc : EOracles) (day startId n : Nat) : List OrderRow :=
  (List.range n).map fun i =>
    { order_id := startId + i
      customer_id := oc.cust_draw (startId + i - 1)
      order_date := day
      hour_of_day := oc.hour_draw (startId + i - 1)
      status := oc.status_draw (startId + i - 1)
      amount := oc.amount_draw (startId + i - 1) }

/-- Embeds `ECommerceGenerator._order_batches` (one full traversal of the stream
returned by `batches_for("orders")`).  The rng is `default_rng(seed + 303)`,
freshly constructed at each traversal, and no instance attribute is written:
the result is a pure function of the configuration (through `_daily_counts`)
and the seed-303 oracle streams. -/
def order_batches (cfg : EConfig) (v : Nat → Int) (oc : EOracles) : List (List OrderRow) :=
  (orderWindows cfg v).map fun w => order_batch oc w.day w.startId w.size

/-- One row of the order_items table, base columns only. -/
structure ItemRow where
  order_item_id : Nat
  order_id : Nat
  product_id : Int
  qty : Int
deriving DecidableEq, Repr

/-- The `items_per_order` value for one order: `rng.poisson(...)` clamped with
`np.where(items_per_order < 1, 1, items_per_order)`. -/
def itemsPerOrder (oc : EOracles) (orderId : Nat) : Nat :=
  (if oc.poisson_draw (orderId - 1) < 1 then 1 else oc.poisson_draw (orderId - 1)).toNat

/-- Embeds `ECommerceGenerator._order_items_for_orders(rng, orders_df)`:
`order_ids = np.repeat(orders_df["order_id"], items_per_order)` and
`order_item_id = arange(1, total_items + 1)` — the identifier restarts at 1
for every batch.  `itemPos` threads the item rng's position across batches
(for the product/qty draws); the returned `Nat` is the advanced position. -/
def order_items_for_orders (oc : EOracles) (itemPos : Nat) (orders : List OrderRow) :
    List ItemRow × Nat :=
  let fks : List Nat := (orders.map (fun o => List.replicate (itemsPerOrder oc o.order_id) o.order_id)).flatten
  let rows := fks.enum.map fun p =>
    { order_item_id := p.1 + 1
      order_id := p.2
      product_id := oc.product_draw (itemPos + p.1)
      qty := oc.qty_draw (itemPos + p.1) }
  (rows, itemPos + fks.length)

/-- Embeds `ECommerceGenerator._order_item_batches`: walks the same `(day, start_id,
batch)` windows as `_order_batches` (same `_daily_counts`, same
`current_order_id` threading), reconstructs each orders batch with
`default_rng(seed + 303)` — the same stream `_order_batches` uses, hence the
same oracle `oc` — and derives the items batch from it. -/
def orderItemBatchesGo (oc : EOracles) : Nat → List EWindow → List (List ItemRow)
  | _, [] => []
  | pos, w :: ws =>
    let orders := order_batch oc w.day w.startId w.size
    let step := order_items_for_orders oc pos orders
    step.1 :: orderItemBatchesGo oc step.2 ws

def order_item_batches (cfg : EConfig) (v : Nat → Int) (oc : EOracles) : List (List ItemRow) :=
  orderItemBatchesGo oc 0 (orderWindows cfg v)

/-! ## Market OHLCV generator (`generators/market_ohlcv.py`) -/

/-- The `freq` literal: `"1m" | "5m" | "15m" | "1h" | "1d"`. -/
inductive Freq
  | m1
  | m5
  | m15
  | h1
  | d1
deriving DecidableEq, Repr

/-- Embeds `MarketOHLCVGenerator._resolve_step_minutes`. -/
def resolve_step_minutes : Freq → Nat
  | .m1 => 1
  | .m5 => 5
  | .m15 => 15
  | .h1 => 60
  | .d1 => 1440

/-- Configuration fields of `MarketOHLCVGenerator` that the generation logic
reads.  `mu`/`sigma` only parameterise the normal draws, which the embedding
abstracts into the `ret_exp` oracle, so they are not repeated here.
`trading_hours = (trading_start, trading_end)`. -/
structure OhlcvConfig where
  symbols : List String
  freq : Freq := .m1
  start_date : Nat
  end_date : Nat
  base_price : ℚ := 100
  base_prices : String → Option ℚ := fun _ => none
  trading_start : Nat := 9
  trading_end : Nat := 17
  seed : Int := 123
  file_rows_target : Nat := 250000

/-- From `__post_init__`: `self._last_close = {sym: prices.get(sym, self.base_price)
for sym in self.symbols}` — the per-symbol price state created at
construction, modelled as a total function. -/
def initLastClose (cfg : OhlcvConfig) : String → ℚ :=
  fun s => (cfg.base_prices s).getD cfg.base_price

def tsLoopFuel : Nat → Nat → Nat → Nat → List Nat
  | 0, _, _, _ => []
  | fuel + 1, stop, step, cur =>
    if 0 < step ∧ cur < stop then cur :: tsLoopFuel fuel stop step (cur + step) else []

/-- The `while current < end_dt: append; current += step` loop of
`_timestamps_for_day`, on minutes-of-day; every iteration closes the gap to
`stop` by at least one minute, so `stop - cur` is sufficient fuel. -/
def tsLoop (stop step cur : Nat) : List Nat :=
  tsLoopFuel (stop - cur) stop step cur

/-- Embeds `MarketOHLCVGenerator._timestamps_for_day` (timestamps as
`(day, minute-of-day)` pairs): midnight for `"1d"`, otherwise every
`step_minutes` from `trading_start:00` up to, excluding, `trading_end:00`. -/
def timestamps_for_day (cfg : OhlcvConfig) (day : Nat) : List (Nat × Nat) :=
  if cfg.freq = .d1 then [(day, 0)]
  else (tsLoop (cfg.trading_end * 60) (resolve_step_minutes cfg.freq) (cfg.trading_start * 60)).map
    (fun m => (day, m))

/-- Draw streams of the single `default_rng(self.seed)` object one traversal of
`_ohlcv_batches` constructs.  Each bar consumes, in order, one log-return
normal, one high-perturbation normal, one low-perturbation normal and one
lognormal volume; `pos` is the global bar index within the traversal.
`ret_exp pos` stands for `exp(rng.normal(mu_dt, sigma_dt))` (strictly positive
for every real log-return), `hperturb`/`lperturb` for the raw
`rng.normal(0, 0.002)` draws (the source applies `abs`, the embedding keeps it
explicit), and `volume_draw` for `rng.lognormal(volume_mean, volume_sigma)`. -/
structure OhlcvOracles where
  ret_exp : Nat → ℚ
  hperturb : Nat → ℚ
  lperturb : Nat → ℚ
  volume_draw : Nat → ℚ

/-- One OHLCV bar (base columns; the derived partition columns are calendar
projections of `timestamp` and play no role in the claims below). -/
structure OhlcvRow where
  ts_day : Nat
  ts_minute : Nat
  symbol : String
  open_price : ℚ
  high : ℚ
  low : ℚ
  close_price : ℚ
  volume : Int
deriving DecidableEq, Repr, Inhabited

/-- Embeds `MarketOHLCVGenerator._rows_for_symbol_day`: the multiplicative walk over
`prev_close`, starting from the instance field `_last_close[symbol]`.  Returns
the rows, the final `prev_close` (which the source writes back into
`self._last_close[symbol]`), and the advanced rng position. -/
def rows_for_symbol_day (oc : OhlcvOracles) (sym : String) :
    List (Nat × Nat) → Nat → ℚ → List OhlcvRow × ℚ × Nat
  | [], pos, prevClose => ([], prevClose, pos)
  | ts :: rest, pos, prevClose =>
    let open_price := prevClose
    let close_price := max (1/100) (open_price * oc.ret_exp pos)
    let high := max open_price close_price * (1 + |oc.hperturb pos|)
    let low := min open_price close_price * (1 - |oc.lperturb pos|)
    let row : OhlcvRow :=
      { ts_day := ts.1, ts_minute := ts.2, symbol := sym, open_price := open_price,
        high := high, low := low, close_price := close_price,
        volume := ⌊max 1 (oc.volume_draw pos)⌋ }
    let rest' := rows_for_symbol_day oc sym rest (pos + 1) close_price
    (row :: rest'.1, rest'.2)

/-- The inner `for symbol in self.symbols` loop of `_ohlcv_batches` for one
day: produces the per-symbol row groups and threads the `_last_close` map and
the rng position. -/
def symbolsFold (oc : OhlcvOracles) (tss : List (Nat × Nat)) :
    List String → (String → ℚ) → Nat → List (List OhlcvRow) × (String → ℚ) × Nat
  | [], lastClose, pos => ([], lastClose, pos)
  | sym :: syms, lastClose, pos =>
    let r := rows_for_symbol_day oc sym tss pos (lastClose sym)
    let rest := symbolsFold oc tss syms (Function.update lastClose sym r.2.1) r.2.2
    (r.1 :: rest.1, rest.2)

/-- The list `start, start + 1, ..., end` — the `_date_range` helpers. -/
def dateRangeList (start stop : Nat) : List Nat :=
  (List.range (stop + 1 - start)).map (start + ·)

/-- The day loop of `_ohlcv_batches`, before chunking: the ordered per-
(day, symbol) row groups, plus the `_last_close` map after the traversal.
Days without timestamps are skipped (`continue`). -/
def ohlcvDaysFold (cfg : OhlcvConfig) (oc : OhlcvOracles) :
    List Nat → (String → ℚ) → Nat → List (List OhlcvRow) × (String → ℚ)
  | [], lastClose, _ => ([], lastClose)
  | d :: ds, lastClose, pos =>
    let tss := timestamps_for_day cfg d
    if tss.isEmpty then ohlcvDaysFold cfg oc ds lastClose pos
    else
      let r := symbolsFold oc tss cfg.symbols lastClose pos
      let rest := ohlcvDaysFold cfg oc ds r.2.1 r.2.2
      (r.1 ++ rest.1, rest.2)

/-- The chunking of `_ohlcv_batches`: `if rows: chunk.extend(rows); if
len(chunk) >= file_rows_target: yield chunk; chunk = []`, with a final
`if chunk: yield chunk`. -/
def chunkGroups (target : Nat) : List (List OhlcvRow) → List OhlcvRow → List (List OhlcvRow)
  | [], chunk => if chunk.isEmpty then [] else [chunk]
  | g :: gs, chunk =>
    if g.isEmpty then chunkGroups target gs chunk
    else
      let c := chunk ++ g
      if target ≤ c.length then c :: chunkGroups target gs []
      else chunkGroups target gs c

/-- One full traversal of the stream returned by
`MarketOHLCVGenerator.batches_for("ohlcv")`: the rng is freshly constructed
(`default_rng(self.seed)`, position 0) but `lastClose` is the *instance* state
`self._last_close`, which the traversal both reads and updates — the second
component is the state the generator holds afterwards. -/
def ohlcv_batches (cfg : OhlcvConfig) (oc : OhlcvOracles) (lastClose : String → ℚ) :
    List (List OhlcvRow) × (String → ℚ) :=
  let r := ohlcvDaysFold cfg oc (dateRangeList cfg.start_date cfg.end_date) lastClose 0
  (chunkGroups cfg.file_rows_target r.1 [], r.2)

/-! ## Weather generator (`generators/weather.py`), hourly stream -/

/-- Configuration fields of `WeatherGenerator` that drive the hourly batching
(locations reduced to their ids; the per-row float synthesis of `_hourly_row`
is irrelevant to the batching claims and is not modelled). -/
structure WeatherConfig where
  locations : List Int
  start_date : Nat
  end_date : Nat
  seed : Int := 2024
  file_rows_target : Nat := 250000

/-- The row iteration order of `_hourly_batches`: days × 24 hours × locations,
one row appended per (day, hour, location). -/
def weather_hourly_rows (cfg : WeatherConfig) : List (Nat × Nat × Int) :=
  (dateRangeList cfg.start_date cfg.end_date).flatMap fun d =>
    (List.range 24).flatMap fun h =>
      cfg.locations.map fun loc => (d, h, loc)

/-- The chunking of `_hourly_batches`: rows are appended one at a time and the
buffer is flushed as soon as `len(chunk) >= file_rows_target`, with a final
`if chunk: yield chunk`. -/
def chunkRows {α : Type} (target : Nat) : List α → List α → List (List α)
  | [], chunk => if chunk.isEmpty then [] else [chunk]
  | r :: rs, chunk =>
    let c := chunk ++ [r]
    if target ≤ c.length then c :: chunkRows target rs []
    else chunkRows target rs c

/-- One full traversal of `WeatherGenerator.batches_for("weather_hourly")`. -/
def weather_hourly_batches (cfg : WeatherConfig) : List (List (Nat × Nat × Int)) :=
  chunkRows cfg.file_rows_target (weather_hourly_rows cfg) []

/-! ## Partitioned parquet writer (`writers/parquet.py`) -/

/-- A partition-column value as it appears in a group key (the tables at hand
use integer calendar columns and the string `yearmonth` column). -/
inductive PValue
  | int (i : Int)
  | str (s : String)
deriving DecidableEq, Repr

/-- A row as the writer sees it: its partition-key projection (the tuple of
partition-column values, in `partition_spec.columns` order) plus an opaque
payload standing for the remaining columns. -/
structure WRow where
  key : List PValue
  payload : Int
deriving DecidableEq, Repr

/-- Embeds `batch.group_by(partition_columns, maintain_order=True)`: distinct keys in
first-seen order, each with its rows in input order. -/
def addToGroups (acc : List (List PValue × List WRow)) (r : WRow) :
    List (List PValue × List WRow) :=
  if acc.any (fun g => g.1 = r.key) then
    acc.map fun g => if g.1 = r.key then (g.1, g.2 ++ [r]) else g
  else acc ++ [(r.key, [r])]

def groupByKey (rows : List WRow) : List (List PValue × List WRow) :=
  rows.foldl addToGroups []

/-- Zero-pad the decimal representation of `n` to width `w` (`f"{n:0wd}"` for
non-negative `n`). -/
def padNum (w : Nat) (n : Nat) : String :=
  let s := toString n
  if s.length < w then String.mk (List.replicate (w - s.length) '0') ++ s else s

/-- One `col=value` folder segment of `_write_partitioned`: integer values for
`month`/`day` are zero-padded to two digits, other integers are unpadded,
non-numeric values are rendered literally. -/
def formatSegment (col : String) (v : PValue) : String :=
  match v with
  | .int i =>
      if col = "month" ∨ col = "day" then
        col ++ "=" ++ (if 0 ≤ i ∧ i < 10 then "0" ++ toString i else toString i)
      else col ++ "=" ++ toString i
  | .str s => col ++ "=" ++ s

/-- The `"/".join(parts)` path for the partition folder. -/
def joinParts (cols : List String) (key : List PValue) : String :=
  String.intercalate "/" ((cols.zip key).map fun p => formatSegment p.1 p.2)

/-- The state `self._partition_counters`: table name → partition key → next sequence
number (`defaultdict(dict)` with `.get(key_tuple, 0)` ≡ total function that
defaults to 0). -/
def Counters : Type := String → List PValue → Nat

def initCounters : Counters := fun _ _ => 0

/-- One parquet file emitted by `_write_partitioned`. -/
structure FileWrite where
  table : String
  key : List PValue
  folder : String
  filename : String
  seq : Nat
  rows : List WRow
deriving DecidableEq, Repr

/-- The `for key, subdf in groups` loop body of `_write_partitioned`:
`idx = counters[table].get(key, 0)`, write `folder/part-{idx:05d}.parquet`,
`counters[table][key] = idx + 1`. -/
def writeGroups (root table : String) (specCols : List String) :
    List (List PValue × List WRow) → Counters → List FileWrite × Counters
  | [], ctr => ([], ctr)
  | (key, rows) :: gs, ctr =>
    let idx := ctr table key
    let fw : FileWrite :=
      { table := table, key := key,
        folder := root ++ "/" ++ table ++ "/" ++ joinParts specCols key,
        filename := "part-" ++ padNum 5 idx ++ ".parquet",
        seq := idx, rows := rows }
    let ctr' : Counters := fun t k => if t = table ∧ k = key then idx + 1 else ctr t k
    let rest := writeGroups root table specCols gs ctr'
    (fw :: rest.1, rest.2)

/-- Embeds `ParquetPartitionedWriter._write_partitioned`: iterate the batches, group
each by the partition columns (first-seen key order) and write one
sequence-numbered file per group, threading the per-instance counters. -/
def write_partitioned (root table : String) (specCols : List String) :
    List (List WRow) → Counters → List FileWrite × Counters
  | [], ctr => ([], ctr)
  | b :: bs, ctr =>
    let g := writeGroups root table specCols (groupByKey b) ctr
    let rest := write_partitioned root table specCols bs g.2
    (g.1 ++ rest.1, rest.2)

/-- One `write` call in the fact regime (table, partition columns, batches). -/
structure WriteCall where
  table : String
  specCols : List String
  batches : List (List WRow)

/-- A sequence of `write` calls against one `ParquetPartitionedWriter`
instance, threading its `_partition_counters` state. -/
def runWrites (root : String) : List WriteCall → Counters → List FileWrite × Counters
  | [], ctr => ([], ctr)
  | c :: cs, ctr =>
    let r := write_partitioned root c.table c.specCols c.batches ctr
    let rest := runWrites root cs r.2
    (r.1 ++ rest.1, rest.2)

/-- Embeds `ParquetPartitionedWriter._write_single` (dimension regime): materialise
the whole stream, return early when it is empty, else write the concatenation
as the single file `root/table/table.parquet`.  The result is the list of
files produced. -/
def write_single {α : Type} (root table : String) (batches : List (List α)) :
    List (String × List α) :=
  if batches.isEmpty then []
  else [(root ++ "/" ++ table ++ "/" ++ table ++ ".parquet", batches.flatten)]

/-! ## Pipeline driver (`core/pipeline.py`) -/

/-- The generator surface `write_dataset` consumes (`GeneratorBase`), with the
batch stream, schema and partition-spec types abstract. -/
structure GenModel (β σ π : Type) where
  tables : List String
  batchesFor : String → β
  schemaFor : String → Option σ
  partitionSpecFor : String → Option π

/-- Embeds `selected = tables or generator.tables()`: Python truthiness makes both
`None` and an empty sequence select every generator table. -/
def selectedTables {β σ π : Type} (g : GenModel β σ π) (tablesArg : Option (List String)) :
    List String :=
  match tablesArg with
  | none => g.tables
  | some ts => if ts.isEmpty then g.tables else ts

/-- Embeds `write_dataset(generator, writer, tables)`: the ordered sequence of
`writer.write(table, batches, schema=..., partition_spec=...)` calls the
driver performs. -/
def write_dataset {β σ π : Type} (g : GenModel β σ π) (tablesArg : Option (List String)) :
    List (String × β × Option σ × Option π) :=
  (selectedTables g tablesArg).map fun t =>
    (t, g.batchesFor t, g.schemaFor t, g.partitionSpecFor t)

/-! ## Helper lemmas -/

theorem dayChunksFuel_zero_total (fuel target : Nat) : dayChunksFuel fuel 0 target = [] := by
  cases fuel <;> simp [dayChunksFuel]

theorem dayChunksFuel_congr :
    ∀ fuel fuel' total target : Nat, total ≤ fuel → total ≤ fuel' →
      dayChunksFuel fuel total target = dayChunksFuel fuel' total target := by
  intro fuel
  induction fuel with
  | zero =>
    intro fuel' total target h h'
    have : total = 0 := by omega
    subst this
    rw [dayChunksFuel_zero_total, dayChunksFuel_zero_total]
  | succ f ih =>
    intro fuel' total target h h'
    rcases Nat.eq_zero_or_pos total with rfl | hpos
    · rw [dayChunksFuel_zero_total, dayChunksFuel_zero_total]
    · cases fuel' with
      | zero => omega
      | succ f' =>
        simp only [dayChunksFuel, if_pos hpos]
        by_cases hb : 0 < min total target
        · rw [if_pos hb, if_pos hb]
          have hle : total - min total target ≤ f := by omega
          have hle' : total - min total target ≤ f' := by omega
          rw [ih f' (total - min total target) target hle hle']
        · rw [if_neg hb, if_neg hb]

/-- The one-step unfolding of the `while remaining > 0` loop. -/
theorem dayChunks_eq (total target : Nat) :
    dayChunks total target =
      if 0 < total then
        if 0 < min total target then
          min total target :: dayChunks (total - min total target) target
        else []
      else [] := by
  unfold dayChunks
  rcases Nat.eq_zero_or_pos total with rfl | hpos
  · rw [dayChunksFuel_zero_total]
    simp
  · obtain ⟨n, rfl⟩ : ∃ n, total = n + 1 := ⟨total - 1, by omega⟩
    simp only [dayChunksFuel, if_pos hpos]
    by_cases hb : 0 < min (n + 1) target
    · rw [if_pos hb, if_pos hb]
      have hle : n + 1 - min (n + 1) target ≤ n := by omega
      rw [dayChunksFuel_congr n (n + 1 - min (n + 1) target) (n + 1 - min (n + 1) target) target
        hle (Nat.le_refl _)]
    · rw [if_neg hb, if_neg hb]

theorem dayChunks_zero (target : Nat) : dayChunks 0 target = [] := by
  rw [dayChunks_eq]
  simp

/-- With a positive target, the chunks of one day sum to the day's total:
the inner `while` loop emits every row exactly once. -/
theorem dayChunks_sum (target : Nat) (htarget : 1 ≤ target) :
    ∀ total, (dayChunks total target).sum = total := by
  intro total
  induction total using Nat.strong_induction_on with
  | _ total ih =>
    rw [dayChunks_eq]
    by_cases hpos : 0 < total
    · have hb : 0 < min total target := by omega
      simp only [hpos, if_true, hb, if_true, List.sum_cons]
      rw [ih (total - min total target) (by omega)]
      omega
    · rw [if_neg hpos]
      simp only [List.sum_nil]
      omega

/-- Every chunk the day loop emits is positive and at most the target. -/
theorem dayChunks_mem (target : Nat) :
    ∀ total, ∀ b ∈ dayChunks total target, 1 ≤ b ∧ b ≤ target := by
  intro total
  induction total using Nat.strong_induction_on with
  | _ total ih =>
    rw [dayChunks_eq]
    by_cases hpos : 0 < total
    · by_cases hb : 0 < min total target
      · simp only [hpos, if_true, hb, if_true, List.mem_cons]
        rintro b (rfl | hmem)
        · omega
        · exact ih (total - min total target) (by omega) b hmem
      · simp [hpos, hb]
    · simp [hpos]

/-- Every chunk except the day's last one has exactly the target size. -/
theorem dayChunks_dropLast (target : Nat) (htarget : 1 ≤ target) :
    ∀ total, ∀ b ∈ (dayChunks total target).dropLast, b = target := by
  intro total
  induction total using Nat.strong_induction_on with
  | _ total ih =>
    rw [dayChunks_eq]
    by_cases hpos : 0 < total
    · have hb : 0 < min total target := by omega
      simp only [hpos, if_true, hb, if_true]
      by_cases hrest : total - min total target = 0
      · rw [hrest, dayChunks_zero]
        simp
      · intro b hmem
        rw [List.dropLast_cons_of_ne_nil] at hmem
        · rcases List.mem_cons.mp hmem with rfl | h
          · -- a further chunk remains, so this one was a full `target`
            omega
          · exact ih (total - min total target) (by omega) b h
        · rw [dayChunks_eq]
          have : 0 < total - min total target := by omega
          have hb' : 0 < min (total - min total target) target := by omega
          simp [this, hb']
    · simp [hpos]

theorem windowsForDay_snd (day : Nat) :
    ∀ (bs : List Nat) (cur : Nat), (windowsForDay day cur bs).2 = cur + bs.sum := by
  intro bs
  induction bs with
  | nil => intro cur; simp [windowsForDay]
  | cons b bs ih => intro cur; simp [windowsForDay, ih]; omega

theorem windowsForDay_sizes (day : Nat) :
    ∀ (bs : List Nat) (cur : Nat), (windowsForDay day cur bs).1.map (fun w => w.size) = bs := by
  intro bs
  induction bs with
  | nil => intro cur; simp [windowsForDay]
  | cons b bs ih => intro cur; simp [windowsForDay, ih]

theorem windowsForDay_ids (day : Nat) :
    ∀ (bs : List Nat) (cur : Nat),
      ((windowsForDay day cur bs).1.map (fun w => List.range' w.startId w.size)).flatten
        = List.range' cur bs.sum := by
  intro bs
  induction bs with
  | nil => intro cur; simp [windowsForDay]
  | cons b bs ih =>
    intro cur
    simp only [windowsForDay, List.map_cons, List.flatten_cons, ih, List.sum_cons]
    have := List.range'_append cur b bs.sum 1
    simpa [Nat.add_comm] using this

theorem eWindowsGo_sizes (target : Nat) :
    ∀ (plan : List (Nat × Int)) (cur : Nat),
      (eWindowsGo target cur plan).map (fun w => w.size)
        = (plan.map (fun dc => dayChunks dc.2.toNat target)).flatten := by
  intro plan
  induction plan with
  | nil => intro cur; simp [eWindowsGo]
  | cons dc rest ih =>
    intro cur
    obtain ⟨day, total⟩ := dc
    simp only [eWindowsGo, List.map_append, List.map_cons, List.flatten_cons, ih,
      windowsForDay_sizes]

theorem eWindowsGo_ids (target : Nat) :
    ∀ (plan : List (Nat × Int)) (cur : Nat),
      ((eWindowsGo target cur plan).map (fun w => List.range' w.startId w.size)).flatten
        = List.range' cur ((plan.map (fun dc => (dayChunks dc.2.toNat target).sum)).sum) := by
  intro plan
  induction plan with
  | nil => intro cur; simp [eWindowsGo]
  | cons dc rest ih =>
    intro cur
    obtain ⟨day, total⟩ := dc
    simp only [eWindowsGo, List.map_append, List.flatten_append, ih, windowsForDay_ids,
      windowsForDay_snd, List.map_cons, List.sum_cons]
    have := List.range'_append cur (dayChunks total.toNat target).sum
      ((rest.map (fun dc => (dayChunks dc.2.toNat target).sum)).sum) 1
    simpa [Nat.add_comm] using this

theorem order_batch_length (oc : EOracles) (day startId n : Nat) :
    (order_batch oc day startId n).length = n := by
  simp [order_batch]

theorem order_batch_ids (oc : EOracles) (day startId n : Nat) :
    (order_batch oc day startId n).map (fun r => r.order_id) = List.range' startId n := by
  simp only [order_batch, List.map_map]
  rw [List.range'_eq_map_range]
  rfl

/-- The lengths of the orders batches are exactly the per-day chunk lists,
concatenated in day order. -/
theorem order_batches_sizes (cfg : EConfig) (v : Nat → Int) (oc : EOracles) :
    (order_batches cfg v oc).map List.length
      = ((daily_counts cfg v).map (fun dc => dayChunks dc.2.toNat cfg.file_rows_target)).flatten := by
  unfold order_batches orderWindows
  rw [List.map_map]
  have : (List.length ∘ fun w : EWindow => order_batch oc w.day w.startId w.size)
      = fun w : EWindow => w.size := by
    funext w
    simp [order_batch_length]
  rw [this, eWindowsGo_sizes]

/-- Concatenated over one full traversal, the `order_id` column is the
contiguous sequence `1, 2, ...` of length the sum of the daily chunk sums. -/
theorem order_batches_ids (cfg : EConfig) (v : Nat → Int) (oc : EOracles) :
    (order_batches cfg v oc).flatten.map (fun r => r.order_id)
      = List.range' 1 (((daily_counts cfg v).map
          (fun dc => (dayChunks dc.2.toNat cfg.file_rows_target).sum)).sum) := by
  unfold order_batches orderWindows
  rw [List.map_flatten, List.map_map]
  have : (List.map (fun r : OrderRow => r.order_id) ∘
      fun w : EWindow => order_batch oc w.day w.startId w.size)
      = fun w : EWindow => List.range' w.startId w.size := by
    funext w
    simp [order_batch_ids]
  rw [this, eWindowsGo_ids]

theorem mem_dropLast_cons {α : Type} {b c : α} {l : List α}
    (h : b ∈ (c :: l).dropLast) : (b = c ∧ l ≠ []) ∨ b ∈ l.dropLast := by
  cases l with
  | nil => simp at h
  | cons x xs =>
    rw [List.dropLast_cons_of_ne_nil (by simp)] at h
    rcases List.mem_cons.mp h with rfl | h'
    · exact Or.inl ⟨rfl, by simp⟩
    · exact Or.inr h'

/-- Every batch `chunkRows` flushes before the end of input has exactly the
target size: the buffer grows one row at a time and is emitted the moment it
reaches `target`. -/
theorem chunkRows_dropLast {α : Type} (target : Nat) (htarget : 1 ≤ target) :
    ∀ (rows acc : List α), acc.length < target →
      ∀ b ∈ (chunkRows target rows acc).dropLast, b.length = target := by
  intro rows
  induction rows with
  | nil =>
    intro acc hacc b hb
    simp only [chunkRows] at hb
    by_cases hx : acc.isEmpty
    · simp [hx] at hb
    · rw [if_neg hx] at hb
      simp at hb
  | cons r rs ih =>
    intro acc hacc b hb
    simp only [chunkRows] at hb
    by_cases hlen : target ≤ (acc ++ [r]).length
    · rw [if_pos hlen] at hb
      rcases mem_dropLast_cons hb with ⟨rfl, _⟩ | h'
      · have h1 : (acc ++ [r]).length = acc.length + 1 := by simp
        omega
      · exact ih [] (by simpa using htarget) b h'
    · rw [if_neg hlen] at hb
      refine ih (acc ++ [r]) ?_ b hb
      have h1 : (acc ++ [r]).length = acc.length + 1 := by simp
      omega

/-- The function `chunkRows` emits every input row exactly once, in order. -/
theorem chunkRows_flatten {α : Type} (target : Nat) :
    ∀ (rows acc : List α), (chunkRows target rows acc).flatten = acc ++ rows := by
  intro rows
  induction rows with
  | nil =>
    intro acc
    by_cases hx : acc.isEmpty
    · have : acc = [] := by simpa [List.isEmpty_iff] using hx
      simp [chunkRows, hx, this]
    · simp [chunkRows, hx]
  | cons r rs ih =>
    intro acc
    simp only [chunkRows]
    by_cases hlen : target ≤ (acc ++ [r]).length
    · rw [if_pos hlen]
      simp [ih]
    · rw [if_neg hlen]
      simp [ih]

/-! ## Shared concrete instances used by witnesses and counterexamples -/

/-- A concrete oracle assignment: every draw constant (customer 1, hour 12,
status "completed", amount 10, one item per order, product 1, qty 1). -/
def eOraclesW : EOracles :=
  { cust_draw := fun _ => 1, hour_draw := fun _ => 12, status_draw := fun _ => "completed",
    amount_draw := fun _ => 10, poisson_draw := fun _ => 1, product_draw := fun _ => 1,
    qty_draw := fun _ => 1 }

/-- Two days, fixed 15 orders/day, batch target 10 (so each day splits 10+5). -/
def cfgC3 : EConfig :=
  { start_date := 0, end_date := 1, orders_per_day := 15, file_rows_target := 10 }

/-- Two days, fixed 20 orders/day, batch target 10 (the shape of the test
suite's `ECommerceGeneratorTest` configuration). -/
def cfgC2 : EConfig :=
  { start_date := 0, end_date := 1, orders_per_day := 20, file_rows_target := 10 }

/-- Two days, fixed 20 orders/day, used by the C6 witness. -/
def cfgC6 : EConfig :=
  { start_date := 0, end_date := 1, orders_per_day := 20, file_rows_target := 10 }

/-! ## Claims -/

/-- C10: `write_dataset` with `tables=[]` behaves identically to omitting the
argument — `tables or generator.tables()` treats the empty sequence as
absent, so every table the generator lists is generated and written, in the
generator's order. -/
theorem c10_empty_tables_selects_all {β σ π : Type} (g : GenModel β σ π) :
    write_dataset g (some []) = write_dataset g none ∧
    (write_dataset g (some [])).map (fun a => a.1) = g.tables := by
  constructor
  · simp [write_dataset, selectedTables]
  · simp [write_dataset, selectedTables, Function.comp_def]

/-- C9 fails as stated: with zero input batches the dimension regime produces
zero output files, not one — `_write_single` returns before writing when the
materialised stream is empty. -/
theorem c9_counterexample_empty_stream :
    write_single "root" "t" ([] : List (List Int)) = [] ∧
    (write_single "root" "t" ([] : List (List Int))).length ≠ 1 := by
  constructor
  · rfl
  · simp [write_single]

/-- C9 (amended): for a non-empty batch stream the dimension regime produces
exactly one file, `root/tableName/tableName.parquet`, whose contents are the
concatenation of all supplied batches in stream order; for an empty stream it
produces no file at all. -/
theorem c9_dimension_single_file {α : Type} (root table : String)
    (batches : List (List α)) (h : batches ≠ []) :
    write_single root table batches
      = [(root ++ "/" ++ table ++ "/" ++ table ++ ".parquet", batches.flatten)] ∧
    write_single root table ([] : List (List α)) = [] := by
  constructor
  · rw [write_single, if_neg (by simpa [List.isEmpty_iff] using h)]
  · rfl

theorem c9_dimension_single_file_witness :
    write_single "root" "dim" [[(1 : Int)], [2, 3]]
      = [("root" ++ "/" ++ "dim" ++ "/" ++ "dim" ++ ".parquet", [1, 2, 3])] :=
  (c9_dimension_single_file "root" "dim" [[(1 : Int)], [2, 3]] (by simp)).1

/-- C6: in fixed mode every day's planned count is `max(orders_floor,
orders_per_day)`, and one stream traversal emits exactly that count for each
of the `end_date - start_date + 1` calendar days. -/
theorem c6_fixed_volume_conservation (cfg : EConfig) (v : Nat → Int) (oc : EOracles)
    (hmode : cfg.orders_mode = .fixed)
    (hdates : cfg.start_date ≤ cfg.end_date)
    (hrate : 0 ≤ cfg.orders_per_day)
    (hfloor : 0 ≤ cfg.orders_floor)
    (htarget : 1 ≤ cfg.file_rows_target) :
    ((order_batches cfg v oc).map List.length).sum
      = (max cfg.orders_floor cfg.orders_per_day).toNat * (cfg.end_date + 1 - cfg.start_date) := by
  rw [order_batches_sizes, List.sum_flatten, List.map_map]
  unfold daily_counts
  rw [List.map_map]
  have step : (List.range (numDays cfg)).map
      ((List.sum ∘ fun dc : Nat × Int => dayChunks dc.2.toNat cfg.file_rows_target) ∘ fun i =>
        (cfg.start_date + i, sample_orders_for_day cfg (v i)))
      = (List.range (numDays cfg)).map
          (fun _ => (max cfg.orders_floor cfg.orders_per_day).toNat) := by
    apply List.map_congr_left
    intro i _
    simp only [Function.comp_apply, sample_orders_for_day, hmode]
    exact dayChunks_sum cfg.file_rows_target htarget _
  rw [step]
  simp [List.map_const', List.sum_replicate, numDays, Nat.mul_comm]

theorem c6_fixed_volume_conservation_witness :
    ((order_batches cfgC6 (fun _ => 0) eOraclesW).map List.length).sum
      = (max cfgC6.orders_floor cfgC6.orders_per_day).toNat
          * (cfgC6.end_date + 1 - cfgC6.start_date) :=
  c6_fixed_volume_conservation cfgC6 (fun _ => 0) eOraclesW rfl (by decide) (by decide)
    (by decide) (by decide)

/-- C3 fails as stated: the ecommerce orders stream does not carry one buffer
across the whole walk — it chunks within each day, so with 15 orders/day over
two days and a target of 10 the emitted sizes are `[10, 5, 10, 5]`: the second
batch is undersized yet not the last batch of the stream. -/
theorem c3_counterexample_day_boundary :
    (order_batches cfgC3 (fun _ => 0) eOraclesW).map List.length = [10, 5, 10, 5] ∧
    ¬ (∀ b ∈ ((order_batches cfgC3 (fun _ => 0) eOraclesW).map List.length).dropLast,
        b = cfgC3.file_rows_target) := by
  constructor
  · decide
  · decide

/-- C3 (amended): the weather hourly stream accumulates rows into a single
running buffer across the entire walk — every batch except possibly the last
has exactly `file_rows_target` rows and no row is lost or duplicated — while
the ecommerce orders stream chunks per day: its batch sizes are the per-day
chunk lists (`min(remaining, file_rows_target)` within each day) concatenated,
so each day whose count is not a multiple of the target contributes an
undersized batch at its day boundary, with all chunks before a day's last one
exactly at target. -/
theorem c3_buffering (cfgW : WeatherConfig) (cfgE : EConfig) (v : Nat → Int) (oc : EOracles)
    (htW : 1 ≤ cfgW.file_rows_target) :
    ((∀ b ∈ (weather_hourly_batches cfgW).dropLast, b.length = cfgW.file_rows_target) ∧
      (weather_hourly_batches cfgW).flatten = weather_hourly_rows cfgW) ∧
    ((order_batches cfgE v oc).map List.length
        = ((daily_counts cfgE v).map
            (fun dc => dayChunks dc.2.toNat cfgE.file_rows_target)).flatten ∧
      ∀ total : Nat, 1 ≤ cfgE.file_rows_target →
        (∀ b ∈ (dayChunks total cfgE.file_rows_target).dropLast, b = cfgE.file_rows_target) ∧
        ∀ b ∈ dayChunks total cfgE.file_rows_target,
          1 ≤ b ∧ b ≤ cfgE.file_rows_target) := by
  refine ⟨⟨?_, ?_⟩, ?_, ?_⟩
  · exact chunkRows_dropLast cfgW.file_rows_target htW (weather_hourly_rows cfgW) []
      (by simpa using htW)
  · simpa using chunkRows_flatten cfgW.file_rows_target (weather_hourly_rows cfgW) []
  · exact order_batches_sizes cfgE v oc
  · intro total htE
    exact ⟨dayChunks_dropLast cfgE.file_rows_target htE total,
      dayChunks_mem cfgE.file_rows_target total⟩

theorem c3_buffering_witness :
    (∀ b ∈ (weather_hourly_batches
        { locations := [1], start_date := 0, end_date := 0,
          file_rows_target := 7 }).dropLast, b.length = 7) ∧
    (order_batches cfgC3 (fun _ => 0) eOraclesW).map List.length
      = ((daily_counts cfgC3 (fun _ => 0)).map
          (fun dc => dayChunks dc.2.toNat cfgC3.file_rows_target)).flatten :=
  ⟨(c3_buffering { locations := [1], start_date := 0, end_date := 0, file_rows_target := 7 }
      cfgC3 (fun _ => 0) eOraclesW (by decide)).1.1,
    ((c3_buffering { locations := [1], start_date := 0, end_date := 0, file_rows_target := 7 }
      cfgC3 (fun _ => 0) eOraclesW (by decide)).2).1⟩

/-- Decidable file selector for one (table, partition key) destination. -/
def matchKey (t : String) (k : List PValue) (f : FileWrite) : Bool :=
  f.table = t ∧ f.key = k

theorem range'_glue {a b c : Nat} (h1 : a ≤ b) (h2 : b ≤ c) :
    List.range' a (b - a) ++ List.range' b (c - b) = List.range' a (c - a) := by
  have := List.range'_append a (b - a) (c - b) 1
  rw [show a + 1 * (b - a) = b by omega] at this
  rw [show c - b + (b - a) = c - a by omega] at this
  exact this

/-- Counter/sequence invariant for the group loop of `_write_partitioned`:
starting from counters `ctr`, the files it emits for destination `(t, k)`
carry the consecutive sequence numbers `ctr t k, ctr t k + 1, ...` and the
final counter records the next free number. -/
theorem writeGroups_files (root table : String) (cs : List String) (t : String)
    (k : List PValue) :
    ∀ (gs : List (List PValue × List WRow)) (ctr : Counters),
      ctr t k ≤ (writeGroups root table cs gs ctr).2 t k ∧
      ((writeGroups root table cs gs ctr).1.filter (matchKey t k)).map (fun f => f.seq)
        = List.range' (ctr t k) ((writeGroups root table cs gs ctr).2 t k - ctr t k) := by
  intro gs
  induction gs with
  | nil => intro ctr; simp [writeGroups]
  | cons g gs ih =>
    intro ctr
    obtain ⟨key, rows⟩ := g
    simp only [writeGroups]
    obtain ⟨ihle, iheq⟩ :=
      ih (fun t' k' => if t' = table ∧ k' = key then ctr table key + 1 else ctr t' k')
    by_cases hm : t = table ∧ k = key
    · obtain ⟨rfl, rfl⟩ := hm
      simp only [and_self, if_pos, List.filter_cons] at ihle iheq ⊢
      rw [show matchKey t k
          { table := t, key := k, folder := root ++ "/" ++ t ++ "/" ++ joinParts cs k,
            filename := "part-" ++ padNum 5 (ctr t k) ++ ".parquet",
            seq := ctr t k, rows := rows } = true by simp [matchKey]]
      simp only [List.map_cons, iheq]
      refine ⟨by omega, ?_⟩
      rw [show (writeGroups root t cs gs fun t' k' =>
          if t' = t ∧ k' = k then ctr t k + 1 else ctr t' k').2 t k - ctr t k
          = ((writeGroups root t cs gs fun t' k' =>
              if t' = t ∧ k' = k then ctr t k + 1 else ctr t' k').2 t k - (ctr t k + 1)) + 1
          by omega]
      rw [List.range'_succ]
      simp only [eq_self_iff_true, if_true, List.map_cons, iheq]
    · have hc : (if t = table ∧ k = key then ctr table key + 1 else ctr t k) = ctr t k := by
        rw [if_neg hm]
      rw [hc] at ihle iheq
      refine ⟨ihle, ?_⟩
      rw [List.filter_cons]
      rw [show matchKey t k
          { table := table, key := key, folder := root ++ "/" ++ table ++ "/" ++ joinParts cs key,
            filename := "part-" ++ padNum 5 (ctr table key) ++ ".parquet",
            seq := ctr table key, rows := rows } = false by
        simp only [matchKey, decide_eq_false_iff_not]
        tauto]
      simpa using iheq

/-- The invariant of `writeGroups_files`, lifted over the batch loop of one
`_write_partitioned` call. -/
theorem write_partitioned_files (root table : String) (cs : List String) (t : String)
    (k : List PValue) :
    ∀ (bs : List (List WRow)) (ctr : Counters),
      ctr t k ≤ (write_partitioned root table cs bs ctr).2 t k ∧
      ((write_partitioned root table cs bs ctr).1.filter (matchKey t k)).map (fun f => f.seq)
        = List.range' (ctr t k) ((write_partitioned root table cs bs ctr).2 t k - ctr t k) := by
  intro bs
  induction bs with
  | nil => intro ctr; simp [write_partitioned]
  | cons b bs ih =>
    intro ctr
    simp only [write_partitioned]
    obtain ⟨hle1, heq1⟩ := writeGroups_files root table cs t k (groupByKey b) ctr
    obtain ⟨hle2, heq2⟩ := ih (writeGroups root table cs (groupByKey b) ctr).2
    refine ⟨le_trans hle1 hle2, ?_⟩
    rw [List.filter_append, List.map_append, heq1, heq2]
    exact range'_glue hle1 hle2

/-- The invariant, lifted over a whole sequence of `write` calls against one
writer instance. -/
theorem runWrites_files (root : String) (t : String) (k : List PValue) :
    ∀ (calls : List WriteCall) (ctr : Counters),
      ctr t k ≤ (runWrites root calls ctr).2 t k ∧
      ((runWrites root calls ctr).1.filter (matchKey t k)).map (fun f => f.seq)
        = List.range' (ctr t k) ((runWrites root calls ctr).2 t k - ctr t k) := by
  intro calls
  induction calls with
  | nil => intro ctr; simp [runWrites]
  | cons c cs ih =>
    intro ctr
    simp only [runWrites]
    obtain ⟨hle1, heq1⟩ := write_partitioned_files root c.table c.specCols t k c.batches ctr
    obtain ⟨hle2, heq2⟩ := ih (write_partitioned root c.table c.specCols c.batches ctr).2
    refine ⟨le_trans hle1 hle2, ?_⟩
    rw [List.filter_append, List.map_append, heq1, heq2]
    exact range'_glue hle1 hle2

/-- Per-file facts of the group loop: table name, folder path and sequence-
numbered filename. -/
theorem writeGroups_mem (root table : String) (cs : List String) :
    ∀ (gs : List (List PValue × List WRow)) (ctr : Counters),
      ∀ f ∈ (writeGroups root table cs gs ctr).1,
        f.table = table ∧ f.folder = root ++ "/" ++ table ++ "/" ++ joinParts cs f.key ∧
        f.filename = "part-" ++ padNum 5 f.seq ++ ".parquet" := by
  intro gs
  induction gs with
  | nil => intro ctr; simp [writeGroups]
  | cons g gs ih =>
    intro ctr f hf
    obtain ⟨key, rows⟩ := g
    simp only [writeGroups, List.mem_cons] at hf
    rcases hf with rfl | hf
    · exact ⟨rfl, rfl, rfl⟩
    · exact ih _ f hf

theorem write_partitioned_mem (root table : String) (cs : List String) :
    ∀ (bs : List (List WRow)) (ctr : Counters),
      ∀ f ∈ (write_partitioned root table cs bs ctr).1,
        f.table = table ∧ f.folder = root ++ "/" ++ table ++ "/" ++ joinParts cs f.key ∧
        f.filename = "part-" ++ padNum 5 f.seq ++ ".parquet" := by
  intro bs
  induction bs with
  | nil => intro ctr; simp [write_partitioned]
  | cons b bs ih =>
    intro ctr f hf
    simp only [write_partitioned, List.mem_append] at hf
    rcases hf with hf | hf
    · exact writeGroups_mem root table cs (groupByKey b) ctr f hf
    · exact ih _ f hf

theorem runWrites_mem (root : String) :
    ∀ (calls : List WriteCall) (ctr : Counters),
      ∀ f ∈ (runWrites root calls ctr).1,
        ∃ c ∈ calls, f.table = c.table ∧
          f.folder = root ++ "/" ++ c.table ++ "/" ++ joinParts c.specCols f.key ∧
          f.filename = "part-" ++ padNum 5 f.seq ++ ".parquet" := by
  intro calls
  induction calls with
  | nil => intro ctr; simp [runWrites]
  | cons c cs ih =>
    intro ctr f hf
    simp only [runWrites, List.mem_append] at hf
    rcases hf with hf | hf
    · exact ⟨c, List.mem_cons_self c cs,
        write_partitioned_mem root c.table c.specCols c.batches ctr f hf⟩
    · obtain ⟨c', hc', hfacts⟩ := ih _ f hf
      exact ⟨c', List.mem_cons_of_mem c hc', hfacts⟩

/-- C4: over any sequence of `write` calls on one writer instance, the files
written to a destination `(table, key)` carry sequence numbers
`0, 1, 2, ...` in emission order — starting at 0 at the first write to that
destination, increasing by exactly 1 per file, persisting across calls (never
reused, never reset, the final counter being the number of files written) —
each file is named `part-{seq:05d}.parquet`, and when every call for the
table supplies the same partition columns, all files of the destination land
in the same folder (so a later write accumulates a new file rather than
overwriting). -/
theorem c4_partition_counters (root : String) (calls : List WriteCall) (t : String)
    (k : List PValue) :
    (((runWrites root calls initCounters).1.filter (matchKey t k)).map (fun f => f.seq)
        = List.range ((runWrites root calls initCounters).2 t k)) ∧
    (∀ f ∈ (runWrites root calls initCounters).1,
        f.filename = "part-" ++ padNum 5 f.seq ++ ".parquet") ∧
    (∀ cs : List String, (∀ c ∈ calls, c.table = t → c.specCols = cs) →
      ∀ f ∈ (runWrites root calls initCounters).1.filter (matchKey t k),
        f.folder = root ++ "/" ++ t ++ "/" ++ joinParts cs k) := by
  refine ⟨?_, ?_, ?_⟩
  · have := (runWrites_files root t k calls initCounters).2
    rw [show initCounters t k = 0 from rfl] at this
    rw [this, Nat.sub_zero, List.range_eq_range']
  · intro f hf
    obtain ⟨c, _, _, _, hname⟩ := runWrites_mem root calls initCounters f hf
    exact hname
  · intro cs hcs f hf
    obtain ⟨hmem, hmatch⟩ := List.mem_filter.mp hf
    obtain ⟨ht, hk⟩ := by simpa [matchKey] using hmatch
    obtain ⟨c, hc, htab, hfold, _⟩ := runWrites_mem root calls initCounters f hmem
    rw [htab] at ht
    rw [hfold, hk, ht, hcs c hc ht]

/-- Witness for C4: one writer instance, two successive `write` calls for the
same table, a single partition key `month=1`; the two files get sequence
numbers 0 and 1 and the same folder. -/
theorem c4_partition_counters_witness :
    (((runWrites "root"
        [⟨"orders", ["month"], [[⟨[.int 1], 7⟩]]⟩, ⟨"orders", ["month"], [[⟨[.int 1], 8⟩]]⟩]
        initCounters).1.filter (matchKey "orders" [.int 1])).map (fun f => f.seq)
      = List.range ((runWrites "root"
        [⟨"orders", ["month"], [[⟨[.int 1], 7⟩]]⟩, ⟨"orders", ["month"], [[⟨[.int 1], 8⟩]]⟩]
        initCounters).2 "orders" [.int 1])) ∧
    (∀ f ∈ (runWrites "root"
        [⟨"orders", ["month"], [[⟨[.int 1], 7⟩]]⟩, ⟨"orders", ["month"], [[⟨[.int 1], 8⟩]]⟩]
        initCounters).1.filter (matchKey "orders" [.int 1]),
      f.folder = "root" ++ "/" ++ "orders" ++ "/" ++ joinParts ["month"] [.int 1]) := by
  refine ⟨(c4_partition_counters "root"
      [⟨"orders", ["month"], [[⟨[.int 1], 7⟩]]⟩, ⟨"orders", ["month"], [[⟨[.int 1], 8⟩]]⟩]
      "orders" [.int 1]).1,
    (c4_partition_counters "root"
      [⟨"orders", ["month"], [[⟨[.int 1], 7⟩]]⟩, ⟨"orders", ["month"], [[⟨[.int 1], 8⟩]]⟩]
      "orders" [.int 1]).2.2 ["month"] ?_⟩
  intro c hc _
  fin_cases hc <;> rfl

/-- C2: at the test suite's configuration shape (two days of 20 fixed orders,
target 10, every order drawing at least one line item) the orders stream's
`order_id` column is the contiguous sequence 1..40 across its four batches,
but the order_items stream restarts `order_item_id` at 1 inside every batch
(`np.arange(1, total_items + 1)` is computed per batch), so the identifier 1
occurs four times across the table and the column is not duplicate-free. -/
theorem c2_order_item_id_resets_per_batch :
    (order_batches cfgC2 (fun _ => 0) eOraclesW).flatten.map (fun r => r.order_id)
      = List.range' 1 40 ∧
    ((order_item_batches cfgC2 (fun _ => 0) eOraclesW).flatten.map
        (fun r => r.order_item_id)).count 1 = 4 ∧
    ¬ ((order_item_batches cfgC2 (fun _ => 0) eOraclesW).flatten.map
        (fun r => r.order_item_id)).Nodup := by
  refine ⟨by decide, by decide, by decide⟩

/-- Every foreign key an items batch carries comes from the orders batch it
was derived from: `np.repeat(orders_df["order_id"], items_per_order)` only
repeats identifiers present in `orders_df`. -/
theorem order_items_for_orders_fk (oc : EOracles) (pos : Nat) (orders : List OrderRow) :
    ∀ r ∈ (order_items_for_orders oc pos orders).1, ∃ o ∈ orders, r.order_id = o.order_id := by
  intro r hr
  simp only [order_items_for_orders, List.mem_map] at hr
  obtain ⟨p, hp, rfl⟩ := hr
  have hsnd : p.2 ∈ (orders.map
      (fun o => List.replicate (itemsPerOrder oc o.order_id) o.order_id)).flatten := by
    have := List.enum_map_snd (orders.map
      (fun o => List.replicate (itemsPerOrder oc o.order_id) o.order_id)).flatten
    exact this ▸ List.mem_map_of_mem Prod.snd hp
  rw [List.mem_flatten] at hsnd
  obtain ⟨l, hl, hmem⟩ := hsnd
  rw [List.mem_map] at hl
  obtain ⟨o, ho, rfl⟩ := hl
  exact ⟨o, ho, (List.mem_replicate.mp hmem).2⟩

/-- C5: the order_items stream and the orders stream walk the same per-day
windows (same day, same starting identifier, same count — both iterate the
construction-time Daily Count Plan and thread `current_order_id` identically)
and the child batch at each position reconstructs the parent rows with the
same `default_rng(seed + 303)` stream, so every child row's `order_id` equals
the `order_id` of some row of the orders batch produced for the same window. -/
theorem c5_referential_integrity (cfg : EConfig) (v : Nat → Int) (oc : EOracles) :
    List.Forall₂ (fun (items : List ItemRow) (orders : List OrderRow) =>
        ∀ r ∈ items, ∃ o ∈ orders, r.order_id = o.order_id)
      (order_item_batches cfg v oc) (order_batches cfg v oc) := by
  unfold order_item_batches order_batches
  suffices h : ∀ (ws : List EWindow) (pos : Nat),
      List.Forall₂ (fun (items : List ItemRow) (orders : List OrderRow) =>
          ∀ r ∈ items, ∃ o ∈ orders, r.order_id = o.order_id)
        (orderItemBatchesGo oc pos ws)
        (ws.map fun w => order_batch oc w.day w.startId w.size) from
    h (orderWindows cfg v) 0
  intro ws
  induction ws with
  | nil => intro pos; simp [orderItemBatchesGo]
  | cons w ws ih =>
    intro pos
    simp only [orderItemBatchesGo, List.map_cons]
    exact List.Forall₂.cons
      (order_items_for_orders_fk oc pos (order_batch oc w.day w.startId w.size)) (ih _)

/-- Closed instance of C5 at a concrete configuration: the first item batch's
foreign keys all appear in the first orders batch. -/
theorem c5_referential_integrity_witness :
    ∀ r ∈ (order_item_batches cfgC2 (fun _ => 0) eOraclesW).headI,
      ∃ o ∈ (order_batches cfgC2 (fun _ => 0) eOraclesW).headI, r.order_id = o.order_id := by
  have h := c5_referential_integrity cfgC2 (fun _ => 0) eOraclesW
  cases h with
  | cons hhead _ => simpa using hhead

/-- Two days of range mode with `orders_min = 40 < orders_max = 60` but
`orders_floor = 100`: the configuration validates, yet every planned count is
`max(100, draw) = 100 ∉ [40, 60]` — independently of the drawn values — and
the counts are all equal, refuting both conjuncts of C7 as stated. -/
def cfgC7 : EConfig :=
  { start_date := 0, end_date := 1, orders_per_day := 50, file_rows_target := 10,
    orders_mode := .range, orders_min := some 40, orders_max := some 60, orders_floor := 100 }

theorem c7_counterexample_floor_above_max :
    validate_configuration cfgC7 = some cfgC7 ∧
    cfgC7.orders_min = some 40 ∧ cfgC7.orders_max = some 60 ∧
    cfgC7.start_date < cfgC7.end_date ∧
    (daily_counts cfgC7 (fun _ => 40)).map (fun dc => dc.2) = [100, 100] ∧
    (daily_counts cfgC7 (fun i => 40 + 10 * i)).map (fun dc => dc.2) = [100, 100] ∧
    ¬ ((100 : Int) ≤ 60) := by
  refine ⟨by decide, rfl, rfl, by decide, by decide, by decide, by decide⟩

/-- C7 (amended): with the numpy contract that each day's uniform draw lies in
`[orders_min, orders_max]`, every entry of the Daily Count Plan lies in
`[max(floor, min), max(floor, max)]` — hence in `[orders_min, orders_max]`
whenever `orders_floor ≤ orders_min` — and, under that floor condition, the
per-day counts differ wherever the underlying draws differ (so they are
non-constant exactly when the sampled draws are; a floor at or above the
bounds makes every count equal the floor regardless of the seed). -/
theorem c7_range_mode_bounds (cfg : EConfig) (v : Nat → Int) (mn mx : Int)
    (hmode : cfg.orders_mode = .range)
    (hmin : cfg.orders_min = some mn) (hmax : cfg.orders_max = some mx)
    (hv : ∀ i, mn ≤ v i ∧ v i ≤ mx) :
    (∀ dc ∈ daily_counts cfg v,
        max cfg.orders_floor mn ≤ dc.2 ∧ dc.2 ≤ max cfg.orders_floor mx) ∧
    (cfg.orders_floor ≤ mn →
      (∀ dc ∈ daily_counts cfg v, mn ≤ dc.2 ∧ dc.2 ≤ mx) ∧
      (∀ i j : Nat, i < numDays cfg → j < numDays cfg → v i ≠ v j →
        ((daily_counts cfg v).map (fun dc => dc.2))[i]?
          ≠ ((daily_counts cfg v).map (fun dc => dc.2))[j]?)) := by
  have hval : ∀ i : Nat,
      ((daily_counts cfg v).map (fun dc => dc.2))[i]?
        = Option.map (fun i => max cfg.orders_floor (v i)) (List.range (numDays cfg))[i]? := by
    intro i
    unfold daily_counts
    rw [List.map_map, List.getElem?_map]
    simp [sample_orders_for_day, hmode, Function.comp_def]
  constructor
  · intro dc hdc
    unfold daily_counts at hdc
    rw [List.mem_map] at hdc
    obtain ⟨i, _, rfl⟩ := hdc
    simp only [sample_orders_for_day, hmode]
    have := hv i
    constructor
    · exact max_le_max (le_refl _) this.1
    · exact max_le_max (le_refl _) this.2
  · intro hfloor
    constructor
    · intro dc hdc
      unfold daily_counts at hdc
      rw [List.mem_map] at hdc
      obtain ⟨i, _, rfl⟩ := hdc
      simp only [sample_orders_for_day, hmode]
      have := hv i
      constructor
      · exact le_max_of_le_right this.1
      · exact max_le (hfloor.trans (this.1.trans this.2)) this.2
    · intro i j hi hj hne
      rw [hval i, hval j, List.getElem?_range hi, List.getElem?_range hj]
      have hfi : cfg.orders_floor ⊔ v i = v i := max_eq_right (hfloor.trans (hv i).1)
      have hfj : cfg.orders_floor ⊔ v j = v j := max_eq_right (hfloor.trans (hv j).1)
      simp [hfi, hfj, hne]

theorem c7_range_mode_bounds_witness :
    (∀ dc ∈ daily_counts { cfgC7 with orders_floor := 0 } (fun i => if i = 0 then 40 else 41),
      (40 : Int) ≤ dc.2 ∧ dc.2 ≤ 60) ∧
    ((daily_counts { cfgC7 with orders_floor := 0 }
        (fun i => if i = 0 then 40 else 41)).map (fun dc => dc.2))[0]?
      ≠ ((daily_counts { cfgC7 with orders_floor := 0 }
        (fun i => if i = 0 then 40 else 41)).map (fun dc => dc.2))[1]? := by
  have h := c7_range_mode_bounds { cfgC7 with orders_floor := 0 }
    (fun i => if i = 0 then 40 else 41) 40 60 rfl rfl rfl
    (by intro i; by_cases h0 : i = 0 <;> simp [h0])
  have h2 := h.2 (by decide)
  exact ⟨h2.1, h2.2 0 1 (by decide) (by decide) (by decide)⟩

/-- Embeds `ECommerceGenerator.batches_for("orders")` viewed as a state transformer
on the generator instance (whose only generation state is the
construction-time `_daily_counts` plan): the stream derives
`default_rng(seed + 303)` afresh on every traversal and writes no instance
attribute, so a traversal returns the instance state unchanged. -/
def batches_for_orders (cfg : EConfig) (plan : List (Nat × Int)) (oc : EOracles) :
    List (List OrderRow) × List (Nat × Int) :=
  ((eWindowsGo cfg.file_rows_target 1 plan).map
      (fun w => order_batch oc w.day w.startId w.size),
    plan)

/-- One symbol, one `"1d"` day, default base price 100, and a log-return draw
whose exponential is 2 (a realisable value of `exp(rng.normal(...))`). -/
def cfgC1 : OhlcvConfig := { symbols := ["A"], freq := .d1, start_date := 0, end_date := 0 }

def ocC1 : OhlcvOracles :=
  { ret_exp := fun _ => 2, hperturb := fun _ => 0, lperturb := fun _ => 0,
    volume_draw := fun _ => 1 }

/-- As `cfgC1`/`ocC1` with base price 50 and multiplier 3, used by the amended
C1 theorem. -/
def cfgC1b : OhlcvConfig :=
  { symbols := ["B"], freq := .d1, start_date := 0, end_date := 0, base_price := 50 }

def ocC1b : OhlcvOracles :=
  { ret_exp := fun _ => 3, hperturb := fun _ => 0, lperturb := fun _ => 0,
    volume_draw := fun _ => 1 }

section
/- Batteries marks the rational-number operations `@[irreducible]`; the
   concrete OHLCV evaluations below need them to unfold. -/
attribute [local semireducible] Rat.add Rat.mul Rat.sub Rat.inv

/-- C1 fails as stated: iterating `batches_for("ohlcv")` mutates the
generator's `_last_close` (here from the initial 100 to the final close 200),
and a second, independent call — which constructs a fresh rng but starts the
walk from the mutated state — yields a different batch sequence. -/
theorem c1_counterexample_ohlcv_mutation :
    initLastClose cfgC1 "A" = 100 ∧
    (ohlcv_batches cfgC1 ocC1 (initLastClose cfgC1)).2 "A" = 200 ∧
    (ohlcv_batches cfgC1 ocC1 ((ohlcv_batches cfgC1 ocC1 (initLastClose cfgC1)).2)).1
      ≠ (ohlcv_batches cfgC1 ocC1 (initLastClose cfgC1)).1 := by
  refine ⟨by decide, by decide, by decide⟩

/-- C1 (amended): the e-commerce streams are replayable — `batches_for` leaves
the instance state unchanged and a second call yields the identical batch
sequence, because every pseudo-random source is rebuilt from
`seed + fixed_offset` at each traversal — but `MarketOHLCVGenerator` is not:
`_rows_for_symbol_day` writes `_last_close[symbol]` during iteration, so a
second call to `batches_for("ohlcv")` resumes the random walk from the
previous traversal's final closes and in general returns different batches. -/
theorem c1_determinism_amended :
    (∀ (cfg : EConfig) (plan : List (Nat × Int)) (oc : EOracles),
        (batches_for_orders cfg plan oc).2 = plan ∧
        (batches_for_orders cfg (batches_for_orders cfg plan oc).2 oc).1
          = (batches_for_orders cfg plan oc).1) ∧
    ((ohlcv_batches cfgC1b ocC1b (initLastClose cfgC1b)).2 "B" ≠ initLastClose cfgC1b "B") ∧
    ((ohlcv_batches cfgC1b ocC1b ((ohlcv_batches cfgC1b ocC1b (initLastClose cfgC1b)).2)).1
      ≠ (ohlcv_batches cfgC1b ocC1b (initLastClose cfgC1b)).1) := by
  refine ⟨fun cfg plan oc => ⟨rfl, rfl⟩, by decide, by decide⟩

/-- The OHLCV row invariant of C8. -/
def OhlcvRowOk (r : OhlcvRow) : Prop :=
  r.low ≤ min r.open_price r.close_price ∧ max r.open_price r.close_price ≤ r.high

/-- Walking one symbol-day from a non-negative previous close keeps every bar
inside its high/low envelope and returns a non-negative final close. -/
theorem rows_for_symbol_day_ok (oc : OhlcvOracles) (sym : String) :
    ∀ (tss : List (Nat × Nat)) (pos : Nat) (prevClose : ℚ), 0 ≤ prevClose →
      (∀ r ∈ (rows_for_symbol_day oc sym tss pos prevClose).1, OhlcvRowOk r) ∧
      0 ≤ (rows_for_symbol_day oc sym tss pos prevClose).2.1 := by
  intro tss
  induction tss with
  | nil =>
    intro pos prevClose h
    exact ⟨by simp [rows_for_symbol_day], h⟩
  | cons ts rest ih =>
    intro pos prevClose hprev
    have hclose : (0 : ℚ) ≤ max (1 / 100) (prevClose * oc.ret_exp pos) :=
      le_trans (by norm_num) (le_max_left _ _)
    obtain ⟨ihok, ihnn⟩ := ih (pos + 1) _ hclose
    constructor
    · intro r hr
      simp only [rows_for_symbol_day, List.mem_cons] at hr
      rcases hr with rfl | hr
      · constructor
        · have hmin : (0 : ℚ) ≤ min prevClose (max (1 / 100) (prevClose * oc.ret_exp pos)) :=
            le_min hprev hclose
          calc min prevClose (max (1 / 100) (prevClose * oc.ret_exp pos))
                * (1 - |oc.lperturb pos|)
              ≤ min prevClose (max (1 / 100) (prevClose * oc.ret_exp pos)) * 1 :=
                mul_le_mul_of_nonneg_left
                  (by linarith [abs_nonneg (oc.lperturb pos)]) hmin
            _ = min prevClose (max (1 / 100) (prevClose * oc.ret_exp pos)) := mul_one _
        · have hmax : (0 : ℚ) ≤ max prevClose (max (1 / 100) (prevClose * oc.ret_exp pos)) :=
            le_trans hclose (le_max_right _ _)
          exact le_mul_of_one_le_right hmax (by linarith [abs_nonneg (oc.hperturb pos)])
      · exact ihok r hr
    · exact ihnn

/-- The per-day symbol loop preserves the row invariant and the
non-negativity of the `_last_close` map. -/
theorem symbolsFold_ok (oc : OhlcvOracles) (tss : List (Nat × Nat)) :
    ∀ (syms : List String) (lc : String → ℚ) (pos : Nat), (∀ s, 0 ≤ lc s) →
      (∀ g ∈ (symbolsFold oc tss syms lc pos).1, ∀ r ∈ g, OhlcvRowOk r) ∧
      (∀ s, 0 ≤ (symbolsFold oc tss syms lc pos).2.1 s) := by
  intro syms
  induction syms with
  | nil =>
    intro lc pos h
    exact ⟨by simp [symbolsFold], h⟩
  | cons sym syms ih =>
    intro lc pos hlc
    obtain ⟨hok, hnn⟩ := rows_for_symbol_day_ok oc sym tss pos (lc sym) (hlc sym)
    have hupd : ∀ s,
        0 ≤ Function.update lc sym (rows_for_symbol_day oc sym tss pos (lc sym)).2.1 s := by
      intro s
      rcases eq_or_ne s sym with rfl | hne
      · simpa using hnn
      · simpa [Function.update_apply, hne] using hlc s
    obtain ⟨ihok, ihnn⟩ := ih _ _ hupd
    refine ⟨?_, ihnn⟩
    intro g hg
    simp only [symbolsFold, List.mem_cons] at hg
    rcases hg with rfl | hg
    · exact hok
    · exact ihok g hg

theorem ohlcvDaysFold_ok (cfg : OhlcvConfig) (oc : OhlcvOracles) :
    ∀ (days : List Nat) (lc : String → ℚ) (pos : Nat), (∀ s, 0 ≤ lc s) →
      (∀ g ∈ (ohlcvDaysFold cfg oc days lc pos).1, ∀ r ∈ g, OhlcvRowOk r) ∧
      (∀ s, 0 ≤ (ohlcvDaysFold cfg oc days lc pos).2 s) := by
  intro days
  induction days with
  | nil =>
    intro lc pos h
    exact ⟨by simp [ohlcvDaysFold], h⟩
  | cons d ds ih =>
    intro lc pos hlc
    simp only [ohlcvDaysFold]
    by_cases hts : (timestamps_for_day cfg d).isEmpty
    · rw [if_pos hts]
      exact ih lc pos hlc
    · rw [if_neg hts]
      obtain ⟨hok, hnn⟩ := symbolsFold_ok oc (timestamps_for_day cfg d) cfg.symbols lc pos hlc
      obtain ⟨ihok, ihnn⟩ := ih _ _ hnn
      refine ⟨?_, ihnn⟩
      intro g hg
      rcases List.mem_append.mp hg with hg | hg
      · exact hok g hg
      · exact ihok g hg

/-- The function `chunkGroups` emits exactly the rows of its input groups, in order. -/
theorem chunkGroups_flatten (target : Nat) :
    ∀ (gs : List (List OhlcvRow)) (chunk : List OhlcvRow),
      (chunkGroups target gs chunk).flatten = chunk ++ gs.flatten := by
  intro gs
  induction gs with
  | nil =>
    intro chunk
    by_cases h : chunk.isEmpty
    · have he : chunk = [] := by simpa [List.isEmpty_iff] using h
      simp [chunkGroups, h, he]
    · simp [chunkGroups, h]
  | cons g gs ih =>
    intro chunk
    simp only [chunkGroups]
    by_cases hg : g.isEmpty
    · have he : g = [] := by simpa [List.isEmpty_iff] using hg
      rw [if_pos hg]
      simp [ih, he]
    · rw [if_neg hg]
      by_cases hlen : target ≤ (chunk ++ g).length
      · rw [if_pos hlen]
        simp [ih]
      · rw [if_neg hlen]
        simp [ih]

/-- C8: from any non-negative per-symbol price state (the constructed
`_last_close` is non-negative for non-negative configured base prices), every
row of every OHLCV batch satisfies `low ≤ min(open, close)` and
`max(open, close) ≤ high`: the close is floored at 0.01 and high/low are the
multiplicative perturbations `max(open,close)·(1+|ε|)` / `min(open,close)·(1−|ε|)`. -/
theorem c8_ohlcv_price_bounds (cfg : OhlcvConfig) (oc : OhlcvOracles)
    (lastClose : String → ℚ) (hlc : ∀ s, 0 ≤ lastClose s) :
    ∀ b ∈ (ohlcv_batches cfg oc lastClose).1, ∀ r ∈ b, OhlcvRowOk r := by
  intro b hb r hr
  have hmem : r ∈ ((ohlcv_batches cfg oc lastClose).1).flatten :=
    List.mem_flatten.mpr ⟨b, hb, hr⟩
  simp only [ohlcv_batches] at hmem
  rw [chunkGroups_flatten] at hmem
  rw [List.nil_append, List.mem_flatten] at hmem
  obtain ⟨g, hg, hrg⟩ := hmem
  exact (ohlcvDaysFold_ok cfg oc _ lastClose 0 hlc).1 g hg r hrg

theorem c8_ohlcv_price_bounds_witness :
    OhlcvRowOk ((ohlcv_batches cfgC1 ocC1 (initLastClose cfgC1)).1.headI.headI) :=
  c8_ohlcv_price_bounds cfgC1 ocC1 (initLastClose cfgC1)
    (by intro s; simp [initLastClose, cfgC1])
    ((ohlcv_batches cfgC1 ocC1 (initLastClose cfgC1)).1.headI) (by decide)
    ((ohlcv_batches cfgC1 ocC1 (initLastClose cfgC1)).1.headI.headI) (by decide)

end

end DatasetGen
